import Mathlib

/-!
# BusGovernor: the per-sample DSP core of `PluginProcessor.cpp`

Shallow embedding of `BusGovernorAudioProcessor::prepareToPlay` and
`BusGovernorAudioProcessor::processBlock`.

The C++ code computes in `float`.  The embedding reads the same expressions over
an arbitrary linearly ordered field `K` (so that it can be evaluated over `ℚ`),
with `std::pow` passed in as the function `pw`.  The theorems of the claims are
stated over `ℝ` with `pw = Real.rpow`, the real power function, which is what
`std::pow` computes on a positive base (the base is floored at `eps`).  `std::abs` is `|·|` and
`std::max (x, eps)` is `max x eps`.

Over a field no operation overflows and no value is NaN.  Where a claim turns
on that, the loop body is also evaluated on `float` values with infinities and
NaN (`F32`, `sampleTraceF`), with the rounding of finite results and `std::pow`
left as the functions `rnd` and `pw`.
-/

namespace BusGovernor

variable {K : Type} [LinearOrderedField K]

/-- The private DSP fields `a`, `b`, `bSmooth` of the processor together with
the public atomic `bMeter` that the editor reads. -/
structure DspState (K : Type) where
  a : K
  b : K
  bSmooth : K
  bMeter : K

/-- The three parameter values that `processBlock` loads once per block. -/
structure Params (K : Type) where
  pressure : K
  drive : K
  volume : K

/-- The constant `constexpr float eps = 1.0e-12f`. -/
def eps : K := 1.0e-12

/-- The constant `constexpr float shapeK = 6.0f`. -/
def shapeK : K := 6.0

/-- The idiom `x + std::abs (y - x)` of the two recurrences: it is
`a + std::abs (b - a)` in the update of `a` (old `a`, old `b`) and again in the
update of `b` (new `a`, old `b`). -/
def peakHold (x y : K) : K := x + |y - x|

/-- Every local of one iteration of the sample loop of `processBlock`, in the
order in which the loop body computes them. -/
structure SampleTrace (K : Type) where
  det : K
  aSafe : K
  aNew : K
  bSafe : K
  base : K
  expo : K
  bNew : K
  bFloor : K
  invb : K
  outL0 : K
  outR0 : K
  pressedL : K
  pressedR : K
  dL : K
  dR : K
  dLs : K
  dRs : K
  outL : K
  outR : K
  bSmoothNew : K

/-- One iteration of the loop `for (int s = 0; s < numSamples; ++s)` of
`processBlock` on the input samples `l`, `r`, from the state `s`.
`bFloor` is the divisor `std::max (b, eps)` of `invb`; `outL0`, `outR0` are
`outL`, `outR` as first assigned (`l * invb`, `r * invb`). -/
def sampleTrace (pw : K → K → K) (p : Params K) (s : DspState K) (l r : K) :
    SampleTrace K :=
  let det := |l + r|
  let aSafe := max s.a eps
  let a := (1.0 - 0.012) * (s.a + |s.b - s.a|)
    + 0.012 * |s.b * det * det * p.drive| / (aSafe * aSafe)
  let bSafe := max s.b eps
  let base := max (s.b + |a - s.b|) eps
  let expo := a / bSafe
  let b := (1.0 - 0.008) * (a + |s.b - a|) + 0.008 * |pw base expo|
  let bFloor := max b eps
  let invb := 1.0 / bFloor
  let outL0 := l * invb
  let outR0 := r * invb
  let pressedL := outL0 * invb
  let pressedR := outR0 * invb
  let dL := pressedL - outL0
  let dR := pressedR - outR0
  let dLs := dL / (1.0 + shapeK * |dL|)
  let dRs := dR / (1.0 + shapeK * |dR|)
  let outL := (outL0 + p.pressure * dLs) * p.volume
  let outR := (outR0 + p.pressure * dRs) * p.volume
  let bSmooth := 0.95 * s.bSmooth + 0.05 * b
  { det := det, aSafe := aSafe, aNew := a, bSafe := bSafe, base := base,
    expo := expo, bNew := b, bFloor := bFloor, invb := invb,
    outL0 := outL0, outR0 := outR0, pressedL := pressedL, pressedR := pressedR,
    dL := dL, dR := dR, dLs := dLs, dRs := dRs, outL := outL, outR := outR,
    bSmoothNew := bSmooth }

/-- The fields of the processor at the end of one loop iteration: the new
`a`, `b`, `bSmooth`, and `bMeter.store (bSmooth)`. -/
def sampleState (t : SampleTrace K) : DspState K :=
  { a := t.aNew, b := t.bNew, bSmooth := t.bSmoothNew, bMeter := t.bSmoothNew }

/-- The state after `prepareToPlay`: `a = b = bSmooth = 1.0f`, and
`bMeter.store (0.0f)`. -/
def prepareToPlay (_s : DspState K) : DspState K :=
  { a := 1.0, b := 1.0, bSmooth := 1.0, bMeter := 0.0 }

/-- The function `processBlock` on a two-channel buffer, given as the list of
its sample pairs `(ch0[s], ch1[s])`: the final state and the pairs written
back to the buffer. -/
def processBlock (pw : K → K → K) (p : Params K) :
    DspState K → List (K × K) → DspState K × List (K × K)
  | s, [] => (s, [])
  | s, x :: rest =>
    let t := sampleTrace pw p s x.1 x.2
    let res := processBlock pw p (sampleState t) rest
    (res.1, (t.outL, t.outR) :: res.2)

/-- The function `processBlock` on a one-channel buffer (`ch1 == nullptr`):
`r` is `l` and only `ch0[s] = outL` is written. -/
def processBlockMono (pw : K → K → K) (p : Params K) :
    DspState K → List K → DspState K × List K
  | s, [] => (s, [])
  | s, l :: rest =>
    let t := sampleTrace pw p s l l
    let res := processBlockMono pw p (sampleState t) rest
    (res.1, t.outL :: res.2)

/-- The states the processor can be in after a stream start: the state left by
`prepareToPlay`, and any state reached from such a state by further calls of
`processBlock` (each with its own parameter values and buffer). -/
inductive Reachable (pw : K → K → K) : DspState K → Prop
  | reset (s : DspState K) : Reachable pw (prepareToPlay s)
  | block (p : Params K) (s : DspState K) (buf : List (K × K)) :
      Reachable pw s → Reachable pw (processBlock pw p s buf).1
  | blockMono (p : Params K) (s : DspState K) (buf : List K) :
      Reachable pw s → Reachable pw (processBlockMono pw p s buf).1

/-! ## The loop body on binary32 values with infinities and NaN

The definitions above read the arithmetic over a field, where no operation
overflows and no value is NaN.  The definitions of this section evaluate the
same loop body on values that may also be `+inf`, `-inf` or NaN, with the IEEE
rules for these.  The rounding of an exact finite result (to a finite value, or
to an infinity on overflow) is the function `rnd`, and a decimal literal `c` of
the source is `rnd c`.  `std::pow` on such values is the function `pw`. -/

/-- A `float` value: a finite number, `+inf`, `-inf` or NaN (the two zeros
are not told apart). -/
inductive F32 (K : Type) where
  | fin (x : K)
  | pinf
  | ninf
  | nan

/-- Unary minus on `float`. -/
def F32.neg : F32 K → F32 K
  | F32.fin x => F32.fin (-x)
  | F32.pinf => F32.ninf
  | F32.ninf => F32.pinf
  | F32.nan => F32.nan

/-- The operator `+` on `float`: NaN if an operand is NaN or for `inf - inf`. -/
def F32.add (rnd : K → F32 K) : F32 K → F32 K → F32 K
  | F32.fin x, F32.fin y => rnd (x + y)
  | F32.fin _, F32.pinf => F32.pinf
  | F32.fin _, F32.ninf => F32.ninf
  | F32.pinf, F32.fin _ => F32.pinf
  | F32.pinf, F32.pinf => F32.pinf
  | F32.pinf, F32.ninf => F32.nan
  | F32.ninf, F32.fin _ => F32.ninf
  | F32.ninf, F32.pinf => F32.nan
  | F32.ninf, F32.ninf => F32.ninf
  | F32.nan, _ => F32.nan
  | _, F32.nan => F32.nan

/-- The operator `-` on `float`. -/
def F32.sub (rnd : K → F32 K) (x y : F32 K) : F32 K :=
  F32.add rnd x (F32.neg y)

/-- The operator `*` on `float`: NaN if an operand is NaN or for `inf * 0`. -/
def F32.mul (rnd : K → F32 K) : F32 K → F32 K → F32 K
  | F32.fin x, F32.fin y => rnd (x * y)
  | F32.fin x, F32.pinf => if x = 0 then F32.nan else if 0 < x then F32.pinf else F32.ninf
  | F32.fin x, F32.ninf => if x = 0 then F32.nan else if 0 < x then F32.ninf else F32.pinf
  | F32.pinf, F32.fin y => if y = 0 then F32.nan else if 0 < y then F32.pinf else F32.ninf
  | F32.ninf, F32.fin y => if y = 0 then F32.nan else if 0 < y then F32.ninf else F32.pinf
  | F32.pinf, F32.pinf => F32.pinf
  | F32.pinf, F32.ninf => F32.ninf
  | F32.ninf, F32.pinf => F32.ninf
  | F32.ninf, F32.ninf => F32.pinf
  | F32.nan, _ => F32.nan
  | _, F32.nan => F32.nan

/-- The operator `/` on `float`: NaN if an operand is NaN, for `0 / 0` and for
`inf / inf`; a finite value over an infinity is zero; a zero divisor counts as
`+0`. -/
def F32.div (rnd : K → F32 K) : F32 K → F32 K → F32 K
  | F32.fin x, F32.fin y =>
    if y = 0 then (if x = 0 then F32.nan else if 0 < x then F32.pinf else F32.ninf)
    else rnd (x / y)
  | F32.fin _, F32.pinf => F32.fin 0
  | F32.fin _, F32.ninf => F32.fin 0
  | F32.pinf, F32.fin y => if 0 ≤ y then F32.pinf else F32.ninf
  | F32.ninf, F32.fin y => if 0 ≤ y then F32.ninf else F32.pinf
  | F32.pinf, F32.pinf => F32.nan
  | F32.pinf, F32.ninf => F32.nan
  | F32.ninf, F32.pinf => F32.nan
  | F32.ninf, F32.ninf => F32.nan
  | F32.nan, _ => F32.nan
  | _, F32.nan => F32.nan

/-- The function `std::abs` on `float`. -/
def F32.abs : F32 K → F32 K
  | F32.fin x => F32.fin |x|
  | F32.pinf => F32.pinf
  | F32.ninf => F32.pinf
  | F32.nan => F32.nan

/-- The operator `<` on `float`: false when an operand is NaN. -/
def F32.lt : F32 K → F32 K → Bool
  | F32.fin x, F32.fin y => decide (x < y)
  | F32.fin _, F32.pinf => true
  | F32.fin _, F32.ninf => false
  | F32.pinf, _ => false
  | F32.ninf, F32.fin _ => true
  | F32.ninf, F32.pinf => true
  | F32.ninf, F32.ninf => false
  | F32.ninf, F32.nan => false
  | F32.nan, _ => false
  | F32.fin _, F32.nan => false

/-- The function `std::max (x, y)`, which is `(x < y) ? y : x`. -/
def F32.max (x y : F32 K) : F32 K :=
  if F32.lt x y then y else x

/-- One iteration of the sample loop of `processBlock` on `float` values with
infinities and NaN: the same statements as `sampleTrace`, each operator being
the `float` operator. -/
def sampleTraceF (rnd : K → F32 K) (pw : F32 K → F32 K → F32 K) (p : Params (F32 K))
    (s : DspState (F32 K)) (l r : F32 K) : SampleTrace (F32 K) :=
  let epsF := rnd 1.0e-12
  let shapeKF := rnd 6.0
  let det := F32.abs (F32.add rnd l r)
  let aSafe := F32.max s.a epsF
  let a := F32.add rnd
    (F32.mul rnd (F32.sub rnd (rnd 1.0) (rnd 0.012))
      (F32.add rnd s.a (F32.abs (F32.sub rnd s.b s.a))))
    (F32.div rnd
      (F32.mul rnd (rnd 0.012)
        (F32.abs (F32.mul rnd (F32.mul rnd (F32.mul rnd s.b det) det) p.drive)))
      (F32.mul rnd aSafe aSafe))
  let bSafe := F32.max s.b epsF
  let base := F32.max (F32.add rnd s.b (F32.abs (F32.sub rnd a s.b))) epsF
  let expo := F32.div rnd a bSafe
  let b := F32.add rnd
    (F32.mul rnd (F32.sub rnd (rnd 1.0) (rnd 0.008))
      (F32.add rnd a (F32.abs (F32.sub rnd s.b a))))
    (F32.mul rnd (rnd 0.008) (F32.abs (pw base expo)))
  let bFloor := F32.max b epsF
  let invb := F32.div rnd (rnd 1.0) bFloor
  let outL0 := F32.mul rnd l invb
  let outR0 := F32.mul rnd r invb
  let pressedL := F32.mul rnd outL0 invb
  let pressedR := F32.mul rnd outR0 invb
  let dL := F32.sub rnd pressedL outL0
  let dR := F32.sub rnd pressedR outR0
  let dLs := F32.div rnd dL (F32.add rnd (rnd 1.0) (F32.mul rnd shapeKF (F32.abs dL)))
  let dRs := F32.div rnd dR (F32.add rnd (rnd 1.0) (F32.mul rnd shapeKF (F32.abs dR)))
  let outL := F32.mul rnd (F32.add rnd outL0 (F32.mul rnd p.pressure dLs)) p.volume
  let outR := F32.mul rnd (F32.add rnd outR0 (F32.mul rnd p.pressure dRs)) p.volume
  let bSmooth := F32.add rnd (F32.mul rnd (rnd 0.95) s.bSmooth) (F32.mul rnd (rnd 0.05) b)
  { det := det, aSafe := aSafe, aNew := a, bSafe := bSafe, base := base,
    expo := expo, bNew := b, bFloor := bFloor, invb := invb,
    outL0 := outL0, outR0 := outR0, pressedL := pressedL, pressedR := pressedR,
    dL := dL, dR := dR, dLs := dLs, dRs := dRs, outL := outL, outR := outR,
    bSmoothNew := bSmooth }

/-- The function `processBlock` on a two-channel buffer of `float` values with
infinities and NaN. -/
def processBlockF (rnd : K → F32 K) (pw : F32 K → F32 K → F32 K) (p : Params (F32 K)) :
    DspState (F32 K) → List (F32 K × F32 K) → DspState (F32 K) × List (F32 K × F32 K)
  | s, [] => (s, [])
  | s, x :: rest =>
    let t := sampleTraceF rnd pw p s x.1 x.2
    let res := processBlockF rnd pw p (sampleState t) rest
    (res.1, (t.outL, t.outR) :: res.2)

/-- The function `processBlock` on a one-channel buffer of `float` values with
infinities and NaN. -/
def processBlockMonoF (rnd : K → F32 K) (pw : F32 K → F32 K → F32 K) (p : Params (F32 K)) :
    DspState (F32 K) → List (F32 K) → DspState (F32 K) × List (F32 K)
  | s, [] => (s, [])
  | s, l :: rest =>
    let t := sampleTraceF rnd pw p s l l
    let res := processBlockMonoF rnd pw p (sampleState t) rest
    (res.1, t.outL :: res.2)

/-! ## Helper lemmas -/

theorem eps_pos : (0 : K) < eps := by
  unfold eps; norm_num

theorem peak_ge_left (x y : K) : x ≤ x + |y - x| := by
  have := abs_nonneg (y - x); linarith

theorem peak_ge_right (x y : K) : y ≤ x + |y - x| := by
  have := le_abs_self (y - x); linarith

theorem aNew_lower (pw : K → K → K) (p : Params K) (s : DspState K) (l r : K) :
    (1.0 - 0.012) * (s.a + |s.b - s.a|) ≤ (sampleTrace pw p s l r).aNew := by
  have h2 : 0 ≤ 0.012 * |s.b * |l + r| * |l + r| * p.drive|
      / (max s.a eps * max s.a eps) :=
    div_nonneg (mul_nonneg (by norm_num) (abs_nonneg _)) (mul_self_nonneg _)
  simp only [sampleTrace]
  linarith

theorem bNew_lower (pw : K → K → K) (p : Params K) (s : DspState K) (l r : K) :
    (1.0 - 0.008) * ((sampleTrace pw p s l r).aNew
      + |s.b - (sampleTrace pw p s l r).aNew|) ≤ (sampleTrace pw p s l r).bNew := by
  have h2 : 0 ≤ 0.008 * |pw (sampleTrace pw p s l r).base (sampleTrace pw p s l r).expo| :=
    mul_nonneg (by norm_num) (abs_nonneg _)
  simp only [sampleTrace] at h2 ⊢
  linarith

theorem aNew_pos (pw : K → K → K) (p : Params K) (s : DspState K) (l r : K)
    (hb : 0 < s.b) : 0 < (sampleTrace pw p s l r).aNew := by
  have h0 := aNew_lower pw p s l r
  have h1 := peak_ge_right s.a s.b
  have h3 : (0 : K) < 1.0 - 0.012 := by norm_num
  nlinarith

theorem bNew_pos (pw : K → K → K) (p : Params K) (s : DspState K) (l r : K)
    (hb : 0 < s.b) : 0 < (sampleTrace pw p s l r).bNew := by
  have h0 := bNew_lower pw p s l r
  have h1 := peak_ge_right (sampleTrace pw p s l r).aNew s.b
  have h3 : (0 : K) < 1.0 - 0.008 := by norm_num
  nlinarith

theorem processBlock_nil (pw : K → K → K) (p : Params K) (s : DspState K) :
    processBlock pw p s [] = (s, []) := rfl

theorem processBlock_cons (pw : K → K → K) (p : Params K) (s : DspState K)
    (x : K × K) (rest : List (K × K)) :
    processBlock pw p s (x :: rest)
      = ((processBlock pw p (sampleState (sampleTrace pw p s x.1 x.2)) rest).1,
         ((sampleTrace pw p s x.1 x.2).outL, (sampleTrace pw p s x.1 x.2).outR)
           :: (processBlock pw p (sampleState (sampleTrace pw p s x.1 x.2)) rest).2) := rfl

theorem processBlockMono_nil (pw : K → K → K) (p : Params K) (s : DspState K) :
    processBlockMono pw p s [] = (s, []) := rfl

theorem processBlockMono_cons (pw : K → K → K) (p : Params K) (s : DspState K)
    (l : K) (rest : List K) :
    processBlockMono pw p s (l :: rest)
      = ((processBlockMono pw p (sampleState (sampleTrace pw p s l l)) rest).1,
         (sampleTrace pw p s l l).outL
           :: (processBlockMono pw p (sampleState (sampleTrace pw p s l l)) rest).2) := rfl

/-- A property of the state kept by every loop iteration is kept by a whole
two-channel block. -/
theorem processBlock_preserves (pw : K → K → K) (p : Params K)
    (P : DspState K → Prop)
    (hP : ∀ s l r, P s → P (sampleState (sampleTrace pw p s l r))) :
    ∀ (buf : List (K × K)) (s : DspState K), P s → P (processBlock pw p s buf).1 := by
  intro buf
  induction buf with
  | nil => intro s hs; simpa [processBlock_nil] using hs
  | cons x rest ih =>
    intro s hs
    rw [processBlock_cons]
    exact ih _ (hP s x.1 x.2 hs)

/-- A property of the state kept by every loop iteration is kept by a whole
one-channel block. -/
theorem processBlockMono_preserves (pw : K → K → K) (p : Params K)
    (P : DspState K → Prop)
    (hP : ∀ s l r, P s → P (sampleState (sampleTrace pw p s l r))) :
    ∀ (buf : List K) (s : DspState K), P s → P (processBlockMono pw p s buf).1 := by
  intro buf
  induction buf with
  | nil => intro s hs; simpa [processBlockMono_nil] using hs
  | cons x rest ih =>
    intro s hs
    rw [processBlockMono_cons]
    exact ih _ (hP s x x hs)

/-- A property that holds after `prepareToPlay` and is kept by every loop
iteration holds in every reachable state. -/
theorem Reachable.invariant (pw : K → K → K) (P : DspState K → Prop)
    (h0 : ∀ s, P (prepareToPlay s))
    (hP : ∀ p s l r, P s → P (sampleState (sampleTrace pw p s l r))) :
    ∀ s, Reachable pw s → P s := by
  intro s hs
  induction hs with
  | reset s0 => exact h0 s0
  | block p s buf _ ih => exact processBlock_preserves pw p P (hP p) buf s ih
  | blockMono p s buf _ ih => exact processBlockMono_preserves pw p P (hP p) buf s ih

/-! ## C1: positivity of `a` and `b` -/

/-- C1. Positivity invariant over the reals: from every state with `a > 0` and
`b > 0`, for every input pair `(l, r)` and every parameter values (every drive),
one loop iteration of `processBlock` leaves `a > 0` and `b > 0`; hence `a` and
`b` are strictly positive in every state reachable from `prepareToPlay`. -/
theorem positivity_invariant :
    (∀ (p : Params ℝ) (s : DspState ℝ) (l r : ℝ), 0 < s.a → 0 < s.b →
      0 < (sampleState (sampleTrace Real.rpow p s l r)).a
        ∧ 0 < (sampleState (sampleTrace Real.rpow p s l r)).b)
    ∧ (∀ s : DspState ℝ, Reachable Real.rpow s → 0 < s.a ∧ 0 < s.b) := by
  have step : ∀ (p : Params ℝ) (s : DspState ℝ) (l r : ℝ), (0 < s.a ∧ 0 < s.b) →
      0 < (sampleState (sampleTrace Real.rpow p s l r)).a
        ∧ 0 < (sampleState (sampleTrace Real.rpow p s l r)).b := by
    intro p s l r h
    exact ⟨aNew_pos Real.rpow p s l r h.2, bNew_pos Real.rpow p s l r h.2⟩
  refine ⟨fun p s l r ha hb => step p s l r ⟨ha, hb⟩, ?_⟩
  refine Reachable.invariant Real.rpow (fun s => 0 < s.a ∧ 0 < s.b) ?_ step
  intro s
  norm_num [prepareToPlay]

/-- Witness for C1: the step from the reset state on the impulse `l = r = 1`
with the default parameters, and the state reached by that one-sample block. -/
theorem positivity_invariant_witness :
    (0 < (sampleState (sampleTrace Real.rpow (⟨0.27, 5.8, 1.0⟩ : Params ℝ)
        (⟨1, 1, 1, 0⟩ : DspState ℝ) 1 1)).a
      ∧ 0 < (sampleState (sampleTrace Real.rpow (⟨0.27, 5.8, 1.0⟩ : Params ℝ)
        (⟨1, 1, 1, 0⟩ : DspState ℝ) 1 1)).b)
    ∧ (0 < (processBlock Real.rpow (⟨0.27, 5.8, 1.0⟩ : Params ℝ)
        (prepareToPlay (⟨1, 1, 1, 0⟩ : DspState ℝ)) [(1, 1)]).1.a
      ∧ 0 < (processBlock Real.rpow (⟨0.27, 5.8, 1.0⟩ : Params ℝ)
        (prepareToPlay (⟨1, 1, 1, 0⟩ : DspState ℝ)) [(1, 1)]).1.b) :=
  ⟨positivity_invariant.1 ⟨0.27, 5.8, 1.0⟩ ⟨1, 1, 1, 0⟩ 1 1 (by norm_num) (by norm_num),
   positivity_invariant.2 _ (Reachable.block _ _ _ (Reachable.reset _))⟩

/-! ## C2: the pressure term -/

/-- The soft-saturating shaper `d / (1 + shapeK * |d|)` is bounded by
`1 / shapeK`. -/
theorem shaper_bound (d : K) : |d / (1.0 + shapeK * |d|)| ≤ 1 / shapeK := by
  have hd := abs_nonneg d
  have hpos : (0 : K) < 1.0 + shapeK * |d| := by
    unfold shapeK; norm_num; linarith
  rw [abs_div, abs_of_pos hpos, div_le_div_iff₀ hpos (by unfold shapeK; norm_num)]
  unfold shapeK
  norm_num
  linarith

/-- The pressure parameter does not enter the state recurrence nor the shaped
deltas; the output with pressure minus the output at pressure zero is
`pressure * dLs * volume`. -/
theorem outL_sub_base (pw : K → K → K) (p : Params K) (s : DspState K) (l r : K) :
    (sampleTrace pw p s l r).outL - (sampleTrace pw { p with pressure := 0 } s l r).outL
      = p.pressure * (sampleTrace pw p s l r).dLs * p.volume := by
  simp only [sampleTrace]
  ring

theorem outR_sub_base (pw : K → K → K) (p : Params K) (s : DspState K) (l r : K) :
    (sampleTrace pw p s l r).outR - (sampleTrace pw { p with pressure := 0 } s l r).outR
      = p.pressure * (sampleTrace pw p s l r).dRs * p.volume := by
  simp only [sampleTrace]
  ring

theorem abs_dLs_le (pw : K → K → K) (p : Params K) (s : DspState K) (l r : K) :
    |(sampleTrace pw p s l r).dLs| ≤ 1 / shapeK := by
  simp only [sampleTrace]
  exact shaper_bound _

theorem abs_dRs_le (pw : K → K → K) (p : Params K) (s : DspState K) (l r : K) :
    |(sampleTrace pw p s l r).dRs| ≤ 1 / shapeK := by
  simp only [sampleTrace]
  exact shaper_bound _

theorem abs_mul3_le (x d v : K) (hd : |d| ≤ 1 / shapeK) :
    |x * d * v| ≤ |x| * |v| / shapeK := by
  rw [abs_mul, abs_mul]
  have hx := abs_nonneg x
  have hv := abs_nonneg v
  have h6 : (0 : K) < shapeK := by unfold shapeK; norm_num
  rw [le_div_iff₀ h6]
  have h1 : |d| * shapeK ≤ 1 := by
    rw [le_div_iff₀ h6] at hd; exact hd
  have h2 : 0 ≤ |x| * |v| := mul_nonneg hx hv
  nlinarith [abs_nonneg d]

/-- C2, counterexample. From the reset state, with pressure `1`, drive `7.59`,
volume `2` (all within their ranges) and the input `l = r = 5/3`, the new `b` is
`3.008` and the left output differs from the left output at pressure `0` by more
than `|pressure| / shapeK = 1/6`. -/
theorem pressure_bound_counterexample :
    ¬ (|(sampleTrace Real.rpow (⟨1, 7.59, 2⟩ : Params ℝ)
          (prepareToPlay (⟨1, 1, 1, 0⟩ : DspState ℝ)) (5 / 3) (5 / 3)).outL
        - (sampleTrace Real.rpow (⟨0, 7.59, 2⟩ : Params ℝ)
          (prepareToPlay (⟨1, 1, 1, 0⟩ : DspState ℝ)) (5 / 3) (5 / 3)).outL|
      ≤ |(1 : ℝ)| / shapeK) := by
  norm_num [sampleTrace, prepareToPlay, eps, shapeK, abs_of_pos, abs_of_neg, max_eq_left]

/-- C2, amended. With the arithmetic read over the reals (no rounding, no
overflow, no NaN): for every state, input pair and parameter values, each output
channel written by one loop iteration differs from the output the same
iteration writes with pressure `0` by at most `|pressure| * |volume| / shapeK`;
when `|volume| ≤ 1` this is at most `|pressure| / shapeK`. -/
theorem pressure_enhancement_bound (p : Params ℝ) (s : DspState ℝ) (l r : ℝ) :
    (|(sampleTrace Real.rpow p s l r).outL
        - (sampleTrace Real.rpow { p with pressure := 0 } s l r).outL|
        ≤ |p.pressure| * |p.volume| / shapeK
      ∧ |(sampleTrace Real.rpow p s l r).outR
        - (sampleTrace Real.rpow { p with pressure := 0 } s l r).outR|
        ≤ |p.pressure| * |p.volume| / shapeK)
    ∧ (|p.volume| ≤ 1 →
      |(sampleTrace Real.rpow p s l r).outL
        - (sampleTrace Real.rpow { p with pressure := 0 } s l r).outL|
        ≤ |p.pressure| / shapeK
      ∧ |(sampleTrace Real.rpow p s l r).outR
        - (sampleTrace Real.rpow { p with pressure := 0 } s l r).outR|
        ≤ |p.pressure| / shapeK) := by
  have hL : |(sampleTrace Real.rpow p s l r).outL
        - (sampleTrace Real.rpow { p with pressure := 0 } s l r).outL|
        ≤ |p.pressure| * |p.volume| / shapeK := by
    rw [outL_sub_base]
    exact abs_mul3_le _ _ _ (abs_dLs_le Real.rpow p s l r)
  have hR : |(sampleTrace Real.rpow p s l r).outR
        - (sampleTrace Real.rpow { p with pressure := 0 } s l r).outR|
        ≤ |p.pressure| * |p.volume| / shapeK := by
    rw [outR_sub_base]
    exact abs_mul3_le _ _ _ (abs_dRs_le Real.rpow p s l r)
  refine ⟨⟨hL, hR⟩, fun hv => ?_⟩
  have h6 : (0 : ℝ) < shapeK := by unfold shapeK; norm_num
  have hmono : |p.pressure| * |p.volume| / shapeK ≤ |p.pressure| / shapeK := by
    apply div_le_div_of_nonneg_right _ h6.le
    nlinarith [abs_nonneg p.pressure]
  exact ⟨hL.trans hmono, hR.trans hmono⟩

/-- Witness for C2 (amended): the reset state, the impulse `l = r = 1`, the
default pressure `0.27` and drive `5.8`, volume `1`. -/
theorem pressure_enhancement_bound_witness :
    |(1.0 : ℝ)| ≤ 1
    ∧ |(sampleTrace Real.rpow (⟨0.27, 5.8, 1.0⟩ : Params ℝ)
          (prepareToPlay (⟨1, 1, 1, 0⟩ : DspState ℝ)) 1 1).outL
        - (sampleTrace Real.rpow { (⟨0.27, 5.8, 1.0⟩ : Params ℝ) with pressure := 0 }
          (prepareToPlay (⟨1, 1, 1, 0⟩ : DspState ℝ)) 1 1).outL|
        ≤ |(0.27 : ℝ)| / shapeK :=
  ⟨by norm_num,
   ((pressure_enhancement_bound ⟨0.27, 5.8, 1.0⟩ (prepareToPlay ⟨1, 1, 1, 0⟩) 1 1).2
      (by norm_num)).1⟩

/-! ## C3: volume is a linear trim -/

theorem sampleState_volume (pw : K → K → K) (p : Params K) (v w : K)
    (s : DspState K) (l r : K) :
    sampleState (sampleTrace pw { p with volume := v } s l r)
      = sampleState (sampleTrace pw { p with volume := w } s l r) := rfl

theorem outL_volume (pw : K → K → K) (p : Params K) (v : K) (s : DspState K) (l r : K) :
    (sampleTrace pw { p with volume := v } s l r).outL
      = v * (sampleTrace pw { p with volume := 1 } s l r).outL := by
  simp only [sampleTrace]
  ring

theorem outR_volume (pw : K → K → K) (p : Params K) (v : K) (s : DspState K) (l r : K) :
    (sampleTrace pw { p with volume := v } s l r).outR
      = v * (sampleTrace pw { p with volume := 1 } s l r).outR := by
  simp only [sampleTrace]
  ring

theorem processBlock_volume (pw : K → K → K) (p : Params K) (v : K) :
    ∀ (buf : List (K × K)) (s : DspState K),
      (processBlock pw { p with volume := v } s buf).1
          = (processBlock pw { p with volume := 1 } s buf).1
        ∧ (processBlock pw { p with volume := v } s buf).2
          = (processBlock pw { p with volume := 1 } s buf).2.map
              (fun o => (v * o.1, v * o.2)) := by
  intro buf
  induction buf with
  | nil => intro s; simp [processBlock_nil]
  | cons x rest ih =>
    intro s
    rw [processBlock_cons, processBlock_cons]
    rw [sampleState_volume pw p v 1 s x.1 x.2]
    obtain ⟨h1, h2⟩ := ih (sampleState (sampleTrace pw { p with volume := 1 } s x.1 x.2))
    refine ⟨h1, ?_⟩
    simp only [List.map_cons, h2, outL_volume pw p v s x.1 x.2, outR_volume pw p v s x.1 x.2]

theorem processBlockMono_volume (pw : K → K → K) (p : Params K) (v : K) :
    ∀ (buf : List K) (s : DspState K),
      (processBlockMono pw { p with volume := v } s buf).1
          = (processBlockMono pw { p with volume := 1 } s buf).1
        ∧ (processBlockMono pw { p with volume := v } s buf).2
          = (processBlockMono pw { p with volume := 1 } s buf).2.map (fun o => v * o) := by
  intro buf
  induction buf with
  | nil => intro s; simp [processBlockMono_nil]
  | cons x rest ih =>
    intro s
    rw [processBlockMono_cons, processBlockMono_cons]
    rw [sampleState_volume pw p v 1 s x x]
    obtain ⟨h1, h2⟩ := ih (sampleState (sampleTrace pw { p with volume := 1 } s x x))
    refine ⟨h1, ?_⟩
    simp only [List.map_cons, h2, outL_volume pw p v s x x]

/-- C3. Volume is a pure linear trim: from the same state, on the same input
and with the same pressure and drive, the state (`a`, `b`, `bSmooth`, and the
meter) after every number `n` of processed samples is the same for every two
volumes `v`, `w`, and every output sample written with volume `v` is `v` times
the output sample written with volume `1`; on two-channel and on one-channel
buffers. -/
theorem volume_linear_trim (p : Params ℝ) (v w : ℝ) (s : DspState ℝ)
    (buf : List (ℝ × ℝ)) (mono : List ℝ) :
    (∀ n : ℕ, (processBlock Real.rpow { p with volume := v } s (buf.take n)).1
        = (processBlock Real.rpow { p with volume := w } s (buf.take n)).1)
    ∧ (processBlock Real.rpow { p with volume := v } s buf).2
        = (processBlock Real.rpow { p with volume := 1 } s buf).2.map
            (fun o => (v * o.1, v * o.2))
    ∧ (∀ n : ℕ, (processBlockMono Real.rpow { p with volume := v } s (mono.take n)).1
        = (processBlockMono Real.rpow { p with volume := w } s (mono.take n)).1)
    ∧ (processBlockMono Real.rpow { p with volume := v } s mono).2
        = (processBlockMono Real.rpow { p with volume := 1 } s mono).2.map
            (fun o => v * o) := by
  refine ⟨fun n => ?_, (processBlock_volume Real.rpow p v buf s).2, fun n => ?_,
    (processBlockMono_volume Real.rpow p v mono s).2⟩
  · rw [(processBlock_volume Real.rpow p v (buf.take n) s).1,
      (processBlock_volume Real.rpow p w (buf.take n) s).1]
  · rw [(processBlockMono_volume Real.rpow p v (mono.take n) s).1,
      (processBlockMono_volume Real.rpow p w (mono.take n) s).1]

/-! ## C4: reset -/

/-- C4. Idempotent reset and determinism: from every prior state
`prepareToPlay` leaves `a = b = bSmooth = 1`, applying it twice is applying it
once, and a block processed after a reset (same input, same pressure, drive and
volume) gives the same output sequence and the same final state whatever the
state before the reset was; on two-channel and on one-channel buffers. -/
theorem reset_idempotent_deterministic (p : Params ℝ) (s s' : DspState ℝ)
    (buf : List (ℝ × ℝ)) (mono : List ℝ) :
    ((prepareToPlay s).a = 1 ∧ (prepareToPlay s).b = 1 ∧ (prepareToPlay s).bSmooth = 1)
    ∧ prepareToPlay (prepareToPlay s) = prepareToPlay s
    ∧ processBlock Real.rpow p (prepareToPlay s) buf
        = processBlock Real.rpow p (prepareToPlay s') buf
    ∧ processBlockMono Real.rpow p (prepareToPlay s) mono
        = processBlockMono Real.rpow p (prepareToPlay s') mono := by
  refine ⟨?_, rfl, rfl, rfl⟩
  norm_num [prepareToPlay]

/-! ## C5: silence -/

theorem outL_zero (pw : K → K → K) (p : Params K) (s : DspState K) (r : K) :
    (sampleTrace pw p s 0 r).outL = 0 := by
  simp [sampleTrace]

theorem outR_zero (pw : K → K → K) (p : Params K) (s : DspState K) (l : K) :
    (sampleTrace pw p s l 0).outR = 0 := by
  simp [sampleTrace]

theorem processBlock_silence (pw : K → K → K) (p : Params K) :
    ∀ (n : ℕ) (s : DspState K),
      (processBlock pw p s (List.replicate n (0, 0))).2 = List.replicate n (0, 0) := by
  intro n
  induction n with
  | zero => intro s; rfl
  | succ n ih =>
    intro s
    rw [List.replicate_succ, processBlock_cons]
    simp only [outL_zero, outR_zero, ih]

theorem processBlockMono_silence (pw : K → K → K) (p : Params K) :
    ∀ (n : ℕ) (s : DspState K),
      (processBlockMono pw p s (List.replicate n 0)).2 = List.replicate n 0 := by
  intro n
  induction n with
  | zero => intro s; rfl
  | succ n ih =>
    intro s
    rw [List.replicate_succ, processBlockMono_cons]
    simp only [outL_zero, ih]

/-! ### Silence on `float` values with infinities and NaN -/

@[simp] theorem F32.add_nan_left (rnd : K → F32 K) (y : F32 K) :
    F32.add rnd F32.nan y = F32.nan := by
  cases y <;> rfl

@[simp] theorem F32.add_nan_right (rnd : K → F32 K) (x : F32 K) :
    F32.add rnd x F32.nan = F32.nan := by
  cases x <;> rfl

@[simp] theorem F32.neg_nan : F32.neg (F32.nan : F32 K) = F32.nan := rfl

@[simp] theorem F32.sub_nan_left (rnd : K → F32 K) (y : F32 K) :
    F32.sub rnd F32.nan y = F32.nan := by
  simp [F32.sub]

@[simp] theorem F32.sub_nan_right (rnd : K → F32 K) (x : F32 K) :
    F32.sub rnd x F32.nan = F32.nan := by
  simp [F32.sub]

@[simp] theorem F32.mul_nan_left (rnd : K → F32 K) (y : F32 K) :
    F32.mul rnd F32.nan y = F32.nan := by
  cases y <;> rfl

@[simp] theorem F32.mul_nan_right (rnd : K → F32 K) (x : F32 K) :
    F32.mul rnd x F32.nan = F32.nan := by
  cases x <;> rfl

@[simp] theorem F32.div_nan_left (rnd : K → F32 K) (y : F32 K) :
    F32.div rnd F32.nan y = F32.nan := by
  cases y <;> rfl

@[simp] theorem F32.div_nan_right (rnd : K → F32 K) (x : F32 K) :
    F32.div rnd x F32.nan = F32.nan := by
  cases x <;> rfl

@[simp] theorem F32.abs_nan : F32.abs (F32.nan : F32 K) = F32.nan := rfl

@[simp] theorem F32.max_nan_left (y : F32 K) : F32.max F32.nan y = F32.nan := by
  cases y <;> rfl

@[simp] theorem F32.add_fin (rnd : K → F32 K) (x y : K) :
    F32.add rnd (F32.fin x) (F32.fin y) = rnd (x + y) := rfl

@[simp] theorem F32.sub_fin (rnd : K → F32 K) (x y : K) :
    F32.sub rnd (F32.fin x) (F32.fin y) = rnd (x + -y) := rfl

@[simp] theorem F32.mul_fin (rnd : K → F32 K) (x y : K) :
    F32.mul rnd (F32.fin x) (F32.fin y) = rnd (x * y) := rfl

@[simp] theorem F32.abs_fin (x : K) : F32.abs (F32.fin x) = F32.fin |x| := rfl

/-- The product `+inf * 0` is NaN. -/
@[simp] theorem F32.mul_pinf_zero (rnd : K → F32 K) :
    F32.mul rnd F32.pinf (F32.fin 0) = F32.nan := by
  simp [F32.mul]

theorem F32.div_fin (rnd : K → F32 K) (x y : K) (hy : y ≠ 0) :
    F32.div rnd (F32.fin x) (F32.fin y) = rnd (x / y) := by
  simp [F32.div, hy]

theorem processBlockF_cons (rnd : K → F32 K) (pw : F32 K → F32 K → F32 K)
    (p : Params (F32 K)) (s : DspState (F32 K)) (x : F32 K × F32 K)
    (rest : List (F32 K × F32 K)) :
    processBlockF rnd pw p s (x :: rest)
      = ((processBlockF rnd pw p (sampleState (sampleTraceF rnd pw p s x.1 x.2)) rest).1,
         ((sampleTraceF rnd pw p s x.1 x.2).outL, (sampleTraceF rnd pw p s x.1 x.2).outR)
           :: (processBlockF rnd pw p (sampleState (sampleTraceF rnd pw p s x.1 x.2)) rest).2) :=
  rfl

theorem processBlockMonoF_cons (rnd : K → F32 K) (pw : F32 K → F32 K → F32 K)
    (p : Params (F32 K)) (s : DspState (F32 K)) (l : F32 K) (rest : List (F32 K)) :
    processBlockMonoF rnd pw p s (l :: rest)
      = ((processBlockMonoF rnd pw p (sampleState (sampleTraceF rnd pw p s l l)) rest).1,
         (sampleTraceF rnd pw p s l l).outL
           :: (processBlockMonoF rnd pw p (sampleState (sampleTraceF rnd pw p s l l)) rest).2) :=
  rfl

/-- From a state with `b = +inf`, a zero sample pair makes `b * det` NaN, and
the NaN reaches both written samples, whatever `pow` returns and however finite
results are rounded, as long as `0 + 0` is `0`. -/
theorem silence_from_inf (rnd : K → F32 K) (pw : F32 K → F32 K → F32 K)
    (p : Params (F32 K)) (a bS bM : F32 K) (h0 : rnd 0 = F32.fin 0) :
    (sampleTraceF rnd pw p ⟨a, F32.pinf, bS, bM⟩ (F32.fin 0) (F32.fin 0)).outL = F32.nan
    ∧ (sampleTraceF rnd pw p ⟨a, F32.pinf, bS, bM⟩ (F32.fin 0) (F32.fin 0)).outR = F32.nan := by
  constructor <;> simp [sampleTraceF, h0]

/-- Once `b` is NaN it stays NaN. -/
theorem bNewF_nan (rnd : K → F32 K) (pw : F32 K → F32 K → F32 K) (p : Params (F32 K))
    (s : DspState (F32 K)) (l r : F32 K) (hb : s.b = F32.nan) :
    (sampleTraceF rnd pw p s l r).bNew = F32.nan := by
  simp [sampleTraceF, hb]

theorem processBlockF_b_nan (rnd : K → F32 K) (pw : F32 K → F32 K → F32 K)
    (p : Params (F32 K)) :
    ∀ (buf : List (F32 K × F32 K)) (s : DspState (F32 K)), s.b = F32.nan →
      (processBlockF rnd pw p s buf).1.b = F32.nan := by
  intro buf
  induction buf with
  | nil => intro s hs; exact hs
  | cons x rest ih =>
    intro s hs
    rw [processBlockF_cons]
    exact ih _ (bNewF_nan rnd pw p s x.1 x.2 hs)

theorem processBlockMonoF_b_nan (rnd : K → F32 K) (pw : F32 K → F32 K → F32 K)
    (p : Params (F32 K)) :
    ∀ (buf : List (F32 K)) (s : DspState (F32 K)), s.b = F32.nan →
      (processBlockMonoF rnd pw p s buf).1.b = F32.nan := by
  intro buf
  induction buf with
  | nil => intro s hs; exact hs
  | cons x rest ih =>
    intro s hs
    rw [processBlockMonoF_cons]
    exact ih _ (bNewF_nan rnd pw p s x x hs)

theorem invbF_eq (rnd : K → F32 K) (pw : F32 K → F32 K → F32 K) (p : Params (F32 K))
    (s : DspState (F32 K)) (l r : F32 K) :
    (sampleTraceF rnd pw p s l r).invb
      = F32.div rnd (rnd 1.0) (F32.max (sampleTraceF rnd pw p s l r).bNew (rnd 1.0e-12)) := rfl

theorem outLF_eq (rnd : K → F32 K) (pw : F32 K → F32 K → F32 K) (p : Params (F32 K))
    (s : DspState (F32 K)) (l r : F32 K) :
    (sampleTraceF rnd pw p s l r).outL
      = F32.mul rnd
          (F32.add rnd (F32.mul rnd l (sampleTraceF rnd pw p s l r).invb)
            (F32.mul rnd p.pressure
              (F32.div rnd
                (F32.sub rnd
                  (F32.mul rnd (F32.mul rnd l (sampleTraceF rnd pw p s l r).invb)
                    (sampleTraceF rnd pw p s l r).invb)
                  (F32.mul rnd l (sampleTraceF rnd pw p s l r).invb))
                (F32.add rnd (rnd 1.0)
                  (F32.mul rnd (rnd 6.0)
                    (F32.abs (F32.sub rnd
                      (F32.mul rnd (F32.mul rnd l (sampleTraceF rnd pw p s l r).invb)
                        (sampleTraceF rnd pw p s l r).invb)
                      (F32.mul rnd l (sampleTraceF rnd pw p s l r).invb))))))))
          p.volume := rfl

theorem outRF_eq (rnd : K → F32 K) (pw : F32 K → F32 K → F32 K) (p : Params (F32 K))
    (s : DspState (F32 K)) (l r : F32 K) :
    (sampleTraceF rnd pw p s l r).outR
      = F32.mul rnd
          (F32.add rnd (F32.mul rnd r (sampleTraceF rnd pw p s l r).invb)
            (F32.mul rnd p.pressure
              (F32.div rnd
                (F32.sub rnd
                  (F32.mul rnd (F32.mul rnd r (sampleTraceF rnd pw p s l r).invb)
                    (sampleTraceF rnd pw p s l r).invb)
                  (F32.mul rnd r (sampleTraceF rnd pw p s l r).invb))
                (F32.add rnd (rnd 1.0)
                  (F32.mul rnd (rnd 6.0)
                    (F32.abs (F32.sub rnd
                      (F32.mul rnd (F32.mul rnd r (sampleTraceF rnd pw p s l r).invb)
                        (sampleTraceF rnd pw p s l r).invb)
                      (F32.mul rnd r (sampleTraceF rnd pw p s l r).invb))))))))
          p.volume := rfl

/-- With `eps` a positive finite `float` and no overflow up to `1 / eps`, the
gain `1.0f / std::max (b, eps)` is finite whenever the new `b` is not NaN. -/
theorem invbF_fin (rnd : K → F32 K) (pw : F32 K → F32 K → F32 K) (p : Params (F32 K))
    (s : DspState (F32 K)) (l r : F32 K)
    (h1 : rnd 1 = F32.fin 1)
    (he : ∃ e, 0 < e ∧ rnd 1.0e-12 = F32.fin e
      ∧ ∀ x, 0 ≤ x → x ≤ 1 / e → ∃ y, rnd x = F32.fin y)
    (hb : (sampleTraceF rnd pw p s l r).bNew ≠ F32.nan) :
    ∃ v, (sampleTraceF rnd pw p s l r).invb = F32.fin v := by
  obtain ⟨e, hepos, hee, hfin⟩ := he
  have e1 : (1.0 : K) = 1 := by norm_num
  rw [invbF_eq, e1, h1, hee]
  have hE : ∃ v, F32.div rnd (F32.fin 1) (F32.fin e) = F32.fin v := by
    rw [F32.div_fin rnd 1 e hepos.ne']
    exact hfin (1 / e) (by positivity) le_rfl
  cases hx : (sampleTraceF rnd pw p s l r).bNew with
  | nan => exact absurd hx hb
  | pinf => exact ⟨0, rfl⟩
  | ninf => exact hE
  | fin x =>
    by_cases hlt : x < e
    · have : F32.max (F32.fin x) (F32.fin e) = F32.fin e := by
        simp [F32.max, F32.lt, hlt]
      rw [this]; exact hE
    · have : F32.max (F32.fin x) (F32.fin e) = F32.fin x := by
        simp [F32.max, F32.lt, hlt]
      rw [this]
      push_neg at hlt
      have hxpos : 0 < x := lt_of_lt_of_le hepos hlt
      rw [F32.div_fin rnd 1 x hxpos.ne']
      exact hfin (1 / x) (by positivity) (one_div_le_one_div_of_le hepos hlt)

theorem outLF_zero (rnd : K → F32 K) (pw : F32 K → F32 K → F32 K) (p : Params (F32 K))
    (s : DspState (F32 K)) (r : F32 K)
    (h0 : rnd 0 = F32.fin 0) (h1 : rnd 1 = F32.fin 1) (h6 : ∃ k, rnd 6 = F32.fin k)
    (hp : ∃ q, p.pressure = F32.fin q) (hv : ∃ v, p.volume = F32.fin v)
    (hi : ∃ v, (sampleTraceF rnd pw p s (F32.fin 0) r).invb = F32.fin v) :
    (sampleTraceF rnd pw p s (F32.fin 0) r).outL = F32.fin 0 := by
  obtain ⟨k, hk⟩ := h6
  obtain ⟨q, hq⟩ := hp
  obtain ⟨v, hv⟩ := hv
  obtain ⟨w, hw⟩ := hi
  have e1 : (1.0 : K) = 1 := by norm_num
  have e6 : (6.0 : K) = 6 := by norm_num
  rw [outLF_eq, hw, e1, e6, hk, hq, hv, h1]
  simp [h0, h1, F32.div_fin]

theorem outRF_zero (rnd : K → F32 K) (pw : F32 K → F32 K → F32 K) (p : Params (F32 K))
    (s : DspState (F32 K)) (l : F32 K)
    (h0 : rnd 0 = F32.fin 0) (h1 : rnd 1 = F32.fin 1) (h6 : ∃ k, rnd 6 = F32.fin k)
    (hp : ∃ q, p.pressure = F32.fin q) (hv : ∃ v, p.volume = F32.fin v)
    (hi : ∃ v, (sampleTraceF rnd pw p s l (F32.fin 0)).invb = F32.fin v) :
    (sampleTraceF rnd pw p s l (F32.fin 0)).outR = F32.fin 0 := by
  obtain ⟨k, hk⟩ := h6
  obtain ⟨q, hq⟩ := hp
  obtain ⟨v, hv⟩ := hv
  obtain ⟨w, hw⟩ := hi
  have e1 : (1.0 : K) = 1 := by norm_num
  have e6 : (6.0 : K) = 6 := by norm_num
  rw [outRF_eq, hw, e1, e6, hk, hq, hv, h1]
  simp [h0, h1, F32.div_fin]

/-- On `float` values: if `b` is not NaN after a block of `n` zero pairs, every
pair written by the block is zero. -/
theorem processBlockF_silence (rnd : K → F32 K) (pw : F32 K → F32 K → F32 K)
    (p : Params (F32 K))
    (h0 : rnd 0 = F32.fin 0) (h1 : rnd 1 = F32.fin 1) (h6 : ∃ k, rnd 6 = F32.fin k)
    (he : ∃ e, 0 < e ∧ rnd 1.0e-12 = F32.fin e
      ∧ ∀ x, 0 ≤ x → x ≤ 1 / e → ∃ y, rnd x = F32.fin y)
    (hp : ∃ q, p.pressure = F32.fin q) (hv : ∃ v, p.volume = F32.fin v) :
    ∀ (n : ℕ) (s : DspState (F32 K)),
      (processBlockF rnd pw p s (List.replicate n (F32.fin 0, F32.fin 0))).1.b ≠ F32.nan →
      (processBlockF rnd pw p s (List.replicate n (F32.fin 0, F32.fin 0))).2
        = List.replicate n (F32.fin 0, F32.fin 0) := by
  intro n
  induction n with
  | zero => intro s _; rfl
  | succ n ih =>
    intro s hfinal
    rw [List.replicate_succ, processBlockF_cons] at hfinal ⊢
    have hb : (sampleTraceF rnd pw p s (F32.fin 0) (F32.fin 0)).bNew ≠ F32.nan := by
      intro hnan
      exact hfinal (processBlockF_b_nan rnd pw p _ _ hnan)
    have hi := invbF_fin rnd pw p s (F32.fin 0) (F32.fin 0) h1 he hb
    simp only [outLF_zero rnd pw p s (F32.fin 0) h0 h1 h6 hp hv hi,
      outRF_zero rnd pw p s (F32.fin 0) h0 h1 h6 hp hv hi, ih _ hfinal]

/-- On `float` values, one-channel buffer: if `b` is not NaN after a block of
`n` zero samples, every sample written by the block is zero. -/
theorem processBlockMonoF_silence (rnd : K → F32 K) (pw : F32 K → F32 K → F32 K)
    (p : Params (F32 K))
    (h0 : rnd 0 = F32.fin 0) (h1 : rnd 1 = F32.fin 1) (h6 : ∃ k, rnd 6 = F32.fin k)
    (he : ∃ e, 0 < e ∧ rnd 1.0e-12 = F32.fin e
      ∧ ∀ x, 0 ≤ x → x ≤ 1 / e → ∃ y, rnd x = F32.fin y)
    (hp : ∃ q, p.pressure = F32.fin q) (hv : ∃ v, p.volume = F32.fin v) :
    ∀ (n : ℕ) (s : DspState (F32 K)),
      (processBlockMonoF rnd pw p s (List.replicate n (F32.fin 0))).1.b ≠ F32.nan →
      (processBlockMonoF rnd pw p s (List.replicate n (F32.fin 0))).2
        = List.replicate n (F32.fin 0) := by
  intro n
  induction n with
  | zero => intro s _; rfl
  | succ n ih =>
    intro s hfinal
    rw [List.replicate_succ, processBlockMonoF_cons] at hfinal ⊢
    have hb : (sampleTraceF rnd pw p s (F32.fin 0) (F32.fin 0)).bNew ≠ F32.nan := by
      intro hnan
      exact hfinal (processBlockMonoF_b_nan rnd pw p _ _ hnan)
    have hi := invbF_fin rnd pw p s (F32.fin 0) (F32.fin 0) h1 he hb
    simp only [outLF_zero rnd pw p s (F32.fin 0) h0 h1 h6 hp hv hi, ih _ hfinal]

/-- C5, counterexample. On `float` values, from a state with `b = +inf` (any
`a`), a block of one zero sample pair writes NaN on both channels: there is no
rounding of finite results with `0 + 0 = 0`, no `pow` and no parameter values
for which it writes anything else. -/
theorem silence_nan_counterexample :
    ¬ ∃ (rnd : ℝ → F32 ℝ) (pw : F32 ℝ → F32 ℝ → F32 ℝ) (p : Params (F32 ℝ))
        (a bS bM : F32 ℝ),
      rnd 0 = F32.fin 0
      ∧ (processBlockF rnd pw p ⟨a, F32.pinf, bS, bM⟩ [(F32.fin 0, F32.fin 0)]).2
          ≠ [(F32.nan, F32.nan)] := by
  rintro ⟨rnd, pw, p, a, bS, bM, h0, hne⟩
  apply hne
  obtain ⟨hL, hR⟩ := silence_from_inf rnd pw p a bS bM h0
  rw [processBlockF_cons]
  simp only [hL, hR]
  rfl

/-- C5, amended. Silence gives exactly zero output as long as `b` has not
become NaN.  Read over the reals: from every state, for every pressure, drive
and volume and every length `n`, `processBlock` on the all-zero input of length
`n` writes zero to every output sample of both channels (and of the single
channel of a one-channel buffer).  On `float` values with infinities and NaN:
the same holds for finite pressure and volume whenever `b` is not NaN after the
block, for every rounding `rnd` of finite results that keeps `0` and `1`, makes
`shapeK` finite and `eps` positive and finite, and does not overflow up to
`1 / eps`. -/
theorem silence_zero_output (p : Params ℝ) (s : DspState ℝ) (n : ℕ)
    (rnd : ℝ → F32 ℝ) (pw : F32 ℝ → F32 ℝ → F32 ℝ) (pF : Params (F32 ℝ))
    (sF : DspState (F32 ℝ)) :
    ((processBlock Real.rpow p s (List.replicate n (0, 0))).2 = List.replicate n (0, 0)
      ∧ (processBlockMono Real.rpow p s (List.replicate n 0)).2 = List.replicate n 0)
    ∧ (rnd 0 = F32.fin 0 → rnd 1 = F32.fin 1 → (∃ k, rnd 6 = F32.fin k) →
        (∃ e, 0 < e ∧ rnd 1.0e-12 = F32.fin e
          ∧ ∀ x, 0 ≤ x → x ≤ 1 / e → ∃ y, rnd x = F32.fin y) →
        (∃ q, pF.pressure = F32.fin q) → (∃ v, pF.volume = F32.fin v) →
        ((processBlockF rnd pw pF sF (List.replicate n (F32.fin 0, F32.fin 0))).1.b ≠ F32.nan →
          (processBlockF rnd pw pF sF (List.replicate n (F32.fin 0, F32.fin 0))).2
            = List.replicate n (F32.fin 0, F32.fin 0))
        ∧ ((processBlockMonoF rnd pw pF sF (List.replicate n (F32.fin 0))).1.b ≠ F32.nan →
          (processBlockMonoF rnd pw pF sF (List.replicate n (F32.fin 0))).2
            = List.replicate n (F32.fin 0))) := by
  refine ⟨⟨processBlock_silence Real.rpow p n s, processBlockMono_silence Real.rpow p n s⟩, ?_⟩
  intro h0 h1 h6 he hp hv
  exact ⟨processBlockF_silence rnd pw pF h0 h1 h6 he hp hv n sF,
    processBlockMonoF_silence rnd pw pF h0 h1 h6 he hp hv n sF⟩

/-- Witness for C5 (amended): exact arithmetic on finite values (`rnd` is
`F32.fin`), a `pow` that returns `1`, and one zero pair from the state
`a = b = bSmooth = 1` with pressure `0.25`, drive `4`, volume `1`: the new `b` is
finite, and the pair written is zero. -/
theorem silence_zero_output_witness :
    (processBlockF F32.fin (fun _ _ => F32.fin 1)
        (⟨F32.fin 0.25, F32.fin 4, F32.fin 1⟩ : Params (F32 ℝ))
        (⟨F32.fin 1, F32.fin 1, F32.fin 1, F32.fin 0⟩ : DspState (F32 ℝ))
        (List.replicate 1 (F32.fin 0, F32.fin 0))).2
      = List.replicate 1 (F32.fin 0, F32.fin 0) := by
  refine ((silence_zero_output ⟨0.25, 4, 1⟩ ⟨1, 1, 1, 0⟩ 1 F32.fin (fun _ _ => F32.fin 1)
    ⟨F32.fin 0.25, F32.fin 4, F32.fin 1⟩ ⟨F32.fin 1, F32.fin 1, F32.fin 1, F32.fin 0⟩).2
    rfl rfl ⟨6, rfl⟩ ⟨1.0e-12, by norm_num, rfl, fun x _ _ => ⟨x, rfl⟩⟩ ⟨0.25, rfl⟩ ⟨1, rfl⟩).1 ?_
  have hdiv : ∀ x y : ℝ, y ≠ 0 → F32.div F32.fin (F32.fin x) (F32.fin y) = F32.fin (x / y) :=
    fun x y hy => F32.div_fin F32.fin x y hy
  have hmax : F32.max (F32.fin (1 : ℝ)) (F32.fin 1.0e-12) = F32.fin 1 := by
    simp [F32.max, F32.lt]; norm_num
  simp [processBlockF, sampleState, sampleTraceF, hmax, hdiv]

/-! ## C6: the published meter value -/

/-- C6, counterexample. Right after `prepareToPlay` the published meter value
is `0` while `bSmooth` is `1`: they differ. -/
theorem meter_after_reset_counterexample :
    (prepareToPlay (⟨1, 1, 1, 1⟩ : DspState ℝ)).bSmooth = 1
    ∧ (prepareToPlay (⟨1, 1, 1, 1⟩ : DspState ℝ)).bMeter = 0
    ∧ (prepareToPlay (⟨1, 1, 1, 1⟩ : DspState ℝ)).bMeter
        ≠ (prepareToPlay (⟨1, 1, 1, 1⟩ : DspState ℝ)).bSmooth := by
  norm_num [prepareToPlay]

/-- C6, amended. After each processed sample of `processBlock` (hence after
every block with at least one sample, two-channel or one-channel) the published
meter value `bMeter` equals `bSmooth`; right after `prepareToPlay`, `bSmooth` is
`1` and the published meter value is `0`. -/
theorem meter_tracks_bSmooth (p : Params ℝ) (s : DspState ℝ) (l r : ℝ)
    (x : ℝ × ℝ) (rest : List (ℝ × ℝ)) (y : ℝ) (restMono : List ℝ) :
    (sampleState (sampleTrace Real.rpow p s l r)).bMeter
        = (sampleState (sampleTrace Real.rpow p s l r)).bSmooth
    ∧ (processBlock Real.rpow p s (x :: rest)).1.bMeter
        = (processBlock Real.rpow p s (x :: rest)).1.bSmooth
    ∧ (processBlockMono Real.rpow p s (y :: restMono)).1.bMeter
        = (processBlockMono Real.rpow p s (y :: restMono)).1.bSmooth
    ∧ (prepareToPlay s).bSmooth = 1 ∧ (prepareToPlay s).bMeter = 0 := by
  refine ⟨rfl, ?_, ?_, ?_⟩
  · rw [processBlock_cons]
    exact processBlock_preserves Real.rpow p (fun t => t.bMeter = t.bSmooth)
      (fun _ _ _ _ => rfl) rest _ rfl
  · rw [processBlockMono_cons]
    exact processBlockMono_preserves Real.rpow p (fun t => t.bMeter = t.bSmooth)
      (fun _ _ _ _ => rfl) restMono _ rfl
  · norm_num [prepareToPlay]

/-! ## C7: closed form of the meter smoothing -/

theorem bSmoothNew_eq (pw : K → K → K) (p : Params K) (s : DspState K) (l r : K) :
    (sampleState (sampleTrace pw p s l r)).bSmooth
      = 0.95 * s.bSmooth + 0.05 * (sampleState (sampleTrace pw p s l r)).b := rfl

theorem processBlock_single (pw : K → K → K) (p : Params K) (s : DspState K) (x : K × K) :
    (processBlock pw p s [x]).1 = sampleState (sampleTrace pw p s x.1 x.2) := rfl

/-- The one-pole recurrence unrolled from an arbitrary starting state. -/
theorem bSmooth_unrolled (pw : K → K → K) (p : Params K) :
    ∀ (buf : List (K × K)) (s : DspState K),
      (processBlock pw p s buf).1.bSmooth
        = 0.95 ^ buf.length * s.bSmooth
          + 0.05 * ∑ k in Finset.range buf.length,
              0.95 ^ (buf.length - (k + 1)) * (processBlock pw p s (buf.take (k + 1))).1.b := by
  intro buf
  induction buf with
  | nil => intro s; simp [processBlock_nil]
  | cons x rest ih =>
    intro s
    rw [List.length_cons, Finset.sum_range_succ']
    have hsum : ∑ k in Finset.range rest.length,
          (0.95 : K) ^ (rest.length + 1 - (k + 1 + 1))
            * (processBlock pw p s ((x :: rest).take (k + 1 + 1))).1.b
        = ∑ k in Finset.range rest.length,
          (0.95 : K) ^ (rest.length - (k + 1))
            * (processBlock pw p (sampleState (sampleTrace pw p s x.1 x.2))
                (rest.take (k + 1))).1.b := by
      apply Finset.sum_congr rfl
      intro k _
      rw [List.take_succ_cons, processBlock_cons]
      congr 2
      omega
    rw [hsum]
    have h1 : (processBlock pw p s ((x :: rest).take (0 + 1))).1
        = sampleState (sampleTrace pw p s x.1 x.2) := rfl
    rw [h1, processBlock_cons, ih (sampleState (sampleTrace pw p s x.1 x.2)), bSmoothNew_eq]
    simp only [Nat.add_sub_cancel]
    ring

/-- When `b` has the same value `c` after each sample, the smoothed value moves
from its start toward `c` geometrically. -/
theorem bSmooth_constant (pw : K → K → K) (p : Params K) (c : K) :
    ∀ (buf : List (K × K)) (s : DspState K),
      (∀ k, 1 ≤ k → k ≤ buf.length → (processBlock pw p s (buf.take k)).1.b = c) →
      (processBlock pw p s buf).1.bSmooth = c + (s.bSmooth - c) * 0.95 ^ buf.length := by
  intro buf
  induction buf with
  | nil => intro s _; simp [processBlock_nil]
  | cons x rest ih =>
    intro s h
    have hb : (sampleState (sampleTrace pw p s x.1 x.2)).b = c :=
      h 1 le_rfl (by simp)
    have hrest : ∀ k, 1 ≤ k → k ≤ rest.length →
        (processBlock pw p (sampleState (sampleTrace pw p s x.1 x.2)) (rest.take k)).1.b = c := by
      intro k hk1 hk2
      have := h (k + 1) (by omega) (by simp; omega)
      rw [List.take_succ_cons, processBlock_cons] at this
      exact this
    rw [processBlock_cons, ih _ hrest, bSmoothNew_eq, hb, List.length_cons]
    ring

/-- C7. Closed form of the meter smoothing over the reals: after
`prepareToPlay` and a block of `N` samples, `bSmooth` equals
`0.95^N + 0.05 * Σ_{k=1..N} 0.95^(N-k) * B_k`, where `B_k` is the value of `b`
after the `k`-th sample; and whenever `B_k` is a constant `c` for `k = 1..N`,
`bSmooth = c + (1 - c) * 0.95^N`. -/
theorem telemetry_closed_form (p : Params ℝ) (s0 : DspState ℝ) (buf : List (ℝ × ℝ)) :
    (processBlock Real.rpow p (prepareToPlay s0) buf).1.bSmooth
        = 0.95 ^ buf.length
          + 0.05 * ∑ k in Finset.Icc 1 buf.length,
              0.95 ^ (buf.length - k)
                * (processBlock Real.rpow p (prepareToPlay s0) (buf.take k)).1.b
    ∧ ∀ c : ℝ,
        (∀ k, 1 ≤ k → k ≤ buf.length →
          (processBlock Real.rpow p (prepareToPlay s0) (buf.take k)).1.b = c) →
        (processBlock Real.rpow p (prepareToPlay s0) buf).1.bSmooth
          = c + (1 - c) * 0.95 ^ buf.length := by
  constructor
  · rw [bSmooth_unrolled Real.rpow p buf (prepareToPlay s0), ← Nat.Ico_succ_right,
      Finset.sum_Ico_eq_sum_range]
    have h1 : (prepareToPlay s0).bSmooth = 1 := by norm_num [prepareToPlay]
    rw [h1, mul_one, Nat.succ_sub_one]
    congr 2
    apply Finset.sum_congr rfl
    intro k _
    rw [Nat.add_comm 1 k]
  · intro c hc
    rw [bSmooth_constant Real.rpow p c buf (prepareToPlay s0) hc]
    have h1 : (prepareToPlay s0).bSmooth = 1 := by norm_num [prepareToPlay]
    rw [h1]

/-- Witness for C7: after a reset, with drive `1`, the two samples
`(l, r) = (1, 0)` keep `b` at `1`, so `bSmooth = 1 + (1 - 1) * 0.95^2`. -/
theorem telemetry_closed_form_witness :
    (processBlock Real.rpow (⟨0.27, 1, 1⟩ : Params ℝ)
        (prepareToPlay (⟨1, 1, 1, 0⟩ : DspState ℝ)) [(1, 0), (1, 0)]).1.bSmooth
      = 1 + (1 - 1) * 0.95 ^ [((1 : ℝ), (0 : ℝ)), (1, 0)].length := by
  refine (telemetry_closed_form ⟨0.27, 1, 1⟩ ⟨1, 1, 1, 0⟩ [(1, 0), (1, 0)]).2 1 ?_
  intro k hk1 hk2
  simp only [List.length_cons, List.length_nil] at hk2
  interval_cases k
  · norm_num [processBlock, sampleState, sampleTrace, prepareToPlay, eps, max_eq_left]
  · norm_num [processBlock, sampleState, sampleTrace, prepareToPlay, eps, max_eq_left]

/-! ## C8: the `eps` floors -/

theorem eps_le_max (x : K) : eps ≤ max x eps := le_max_right x eps

theorem shaper_divisor_pos (d : K) : (0 : K) < 1.0 + shapeK * |d| := by
  have hd := abs_nonneg d
  unfold shapeK
  norm_num
  linarith

/-- C8. The `eps` floors rule out division by zero and `pow` domain errors:
for every state (`a`, `b` arbitrary reals, zero and negative included), every
input pair and every pressure, drive and volume, the divisors of one loop
iteration, `aSafe * aSafe` (of the `a` update), `bSafe` (of `expo`),
`max (b, eps)` (of `invb`), `1 + shapeK * |dL|` and `1 + shapeK * |dR|` (of
`dLs`, `dRs`), are strictly positive, and the base passed to `pow` is at least
`eps > 0`. -/
theorem eps_floors_safe (p : Params ℝ) (s : DspState ℝ) (l r : ℝ) :
    ((sampleTrace Real.rpow p s l r).aNew
        = (1.0 - 0.012) * (s.a + |s.b - s.a|)
          + 0.012 * |s.b * (sampleTrace Real.rpow p s l r).det
              * (sampleTrace Real.rpow p s l r).det * p.drive|
            / ((sampleTrace Real.rpow p s l r).aSafe * (sampleTrace Real.rpow p s l r).aSafe)
      ∧ 0 < (sampleTrace Real.rpow p s l r).aSafe * (sampleTrace Real.rpow p s l r).aSafe)
    ∧ ((sampleTrace Real.rpow p s l r).expo
        = (sampleTrace Real.rpow p s l r).aNew / (sampleTrace Real.rpow p s l r).bSafe
      ∧ 0 < (sampleTrace Real.rpow p s l r).bSafe)
    ∧ ((sampleTrace Real.rpow p s l r).invb = 1.0 / (sampleTrace Real.rpow p s l r).bFloor
      ∧ (sampleTrace Real.rpow p s l r).bFloor = max (sampleTrace Real.rpow p s l r).bNew eps
      ∧ 0 < (sampleTrace Real.rpow p s l r).bFloor)
    ∧ ((sampleTrace Real.rpow p s l r).dLs
        = (sampleTrace Real.rpow p s l r).dL
          / (1.0 + shapeK * |(sampleTrace Real.rpow p s l r).dL|)
      ∧ 0 < 1.0 + shapeK * |(sampleTrace Real.rpow p s l r).dL|)
    ∧ ((sampleTrace Real.rpow p s l r).dRs
        = (sampleTrace Real.rpow p s l r).dR
          / (1.0 + shapeK * |(sampleTrace Real.rpow p s l r).dR|)
      ∧ 0 < 1.0 + shapeK * |(sampleTrace Real.rpow p s l r).dR|)
    ∧ ((sampleTrace Real.rpow p s l r).bNew
        = (1.0 - 0.008) * ((sampleTrace Real.rpow p s l r).aNew
            + |s.b - (sampleTrace Real.rpow p s l r).aNew|)
          + 0.008 * |Real.rpow (sampleTrace Real.rpow p s l r).base
              (sampleTrace Real.rpow p s l r).expo|
      ∧ eps ≤ (sampleTrace Real.rpow p s l r).base
      ∧ (0 : ℝ) < eps) := by
  have he : (0 : ℝ) < eps := eps_pos
  have hmax : ∀ x : ℝ, 0 < max x eps := fun x => lt_of_lt_of_le he (eps_le_max x)
  refine ⟨⟨rfl, ?_⟩, ⟨rfl, ?_⟩, ⟨rfl, rfl, ?_⟩, ⟨rfl, shaper_divisor_pos _⟩,
    ⟨rfl, shaper_divisor_pos _⟩, ⟨rfl, ?_, he⟩⟩
  · exact mul_pos (hmax _) (hmax _)
  · exact hmax _
  · exact hmax _
  · exact eps_le_max _

/-! ## C9: an impulse followed by silence -/

theorem bNew_eq (pw : K → K → K) (p : Params K) (s : DspState K) (l r : K) :
    (sampleTrace pw p s l r).bNew
      = (1.0 - 0.008) * ((sampleTrace pw p s l r).aNew + |s.b - (sampleTrace pw p s l r).aNew|)
        + 0.008 * |pw (max (s.b + |(sampleTrace pw p s l r).aNew - s.b|) eps)
            ((sampleTrace pw p s l r).aNew / max s.b eps)| := rfl

/-- On a zero sample pair, from a state with `a ≤ b`, the new `a` is `0.988 * b`. -/
theorem silent_aNew (pw : K → K → K) (p : Params K) (s : DspState K) (h : s.a ≤ s.b) :
    (sampleTrace pw p s 0 0).aNew = 0.988 * s.b := by
  simp only [sampleTrace]
  rw [abs_of_nonneg (sub_nonneg.2 h)]
  norm_num

/-- On a zero sample pair, from a state with `a ≤ b` and `1 ≤ b`, the new `b`
is `0.992 * b + 0.008 * (1.012 * b) ^ 0.988`. -/
theorem silent_bNew (p : Params ℝ) (s : DspState ℝ) (hb : 1 ≤ s.b) (h : s.a ≤ s.b) :
    (sampleTrace Real.rpow p s 0 0).bNew
      = 0.992 * s.b + 0.008 * (1.012 * s.b) ^ (0.988 : ℝ) := by
  rw [bNew_eq, silent_aNew Real.rpow p s h]
  have he : (eps : ℝ) ≤ 1 := by unfold eps; norm_num
  have h1 : |s.b - 0.988 * s.b| = 0.012 * s.b := by
    rw [abs_of_nonneg (by linarith)]; ring
  have h2 : |0.988 * s.b - s.b| = 0.012 * s.b := by
    rw [abs_of_nonpos (by linarith)]; ring
  have h3 : max s.b eps = s.b := max_eq_left (by linarith)
  have h4 : max (s.b + 0.012 * s.b) eps = 1.012 * s.b := by
    rw [max_eq_left (by linarith)]; ring
  have h5 : 0.988 * s.b / s.b = 0.988 := by
    field_simp
  rw [h1, h2, h3, h4, h5, Real.rpow_eq_pow,
    abs_of_nonneg (Real.rpow_nonneg (by linarith) _)]
  ring

/-- The silent fixed point of `1.012 * b`, namely `1.012 ^ (250/3)`, raised to
`0.012` is `1.012`. -/
theorem rpow_fixed : ((1.012 : ℝ) ^ (250 / 3 : ℝ)) ^ (0.012 : ℝ) = 1.012 := by
  rw [← Real.rpow_mul (by norm_num)]
  norm_num

theorem rpow_988_gt (y : ℝ) (hy : 0 < y) (hlt : y < (1.012 : ℝ) ^ (250 / 3 : ℝ)) :
    y / 1.012 < y ^ (0.988 : ℝ) := by
  have h1 : y ^ (0.012 : ℝ) < 1.012 := by
    have := Real.rpow_lt_rpow hy.le hlt (show (0 : ℝ) < 0.012 by norm_num)
    rwa [rpow_fixed] at this
  have h0 : 0 < y ^ (0.012 : ℝ) := Real.rpow_pos_of_pos hy _
  have h2 : y ^ (0.988 : ℝ) = y / y ^ (0.012 : ℝ) := by
    rw [show (0.988 : ℝ) = 1 - 0.012 by norm_num, Real.rpow_sub hy, Real.rpow_one]
  rw [h2]
  exact div_lt_div_of_pos_left hy h0 h1

theorem rpow_988_le (y : ℝ) (hy : 0 < y) (hle : y ≤ (1.012 : ℝ) ^ (250 / 3 : ℝ)) :
    1.012 * y ^ (0.988 : ℝ) ≤ (1.012 : ℝ) ^ (250 / 3 : ℝ) := by
  have hY : (0 : ℝ) < (1.012 : ℝ) ^ (250 / 3 : ℝ) := Real.rpow_pos_of_pos (by norm_num) _
  have h1 : y ^ (0.988 : ℝ) ≤ ((1.012 : ℝ) ^ (250 / 3 : ℝ)) ^ (0.988 : ℝ) :=
    Real.rpow_le_rpow hy.le hle (by norm_num)
  have h2 : ((1.012 : ℝ) ^ (250 / 3 : ℝ)) ^ (0.988 : ℝ)
      = (1.012 : ℝ) ^ (250 / 3 : ℝ) / 1.012 := by
    rw [show (0.988 : ℝ) = 1 - 0.012 by norm_num, Real.rpow_sub hY, Real.rpow_one,
      rpow_fixed]
  rw [h2] at h1
  have : 1.012 * ((1.012 : ℝ) ^ (250 / 3 : ℝ) / 1.012) = (1.012 : ℝ) ^ (250 / 3 : ℝ) := by
    field_simp
  linarith

theorem fixed_lower : (1.6 : ℝ) < (1.012 : ℝ) ^ (250 / 3 : ℝ) := by
  have h1 : (1.012 : ℝ) ^ ((83 : ℕ) : ℝ) ≤ (1.012 : ℝ) ^ (250 / 3 : ℝ) :=
    Real.rpow_le_rpow_of_exponent_le (by norm_num) (by norm_num)
  rw [Real.rpow_natCast] at h1
  have h2 : (1.6 : ℝ) < (1.012 : ℝ) ^ 83 := by norm_num
  linarith

/-- One zero sample pair from a state with `1 ≤ b`, `a < 0.988 * b` and
`1.012 * b` below the silent fixed point: `a` and `b` both rise strictly, and
the three conditions hold again. -/
theorem silent_step (p : Params ℝ) (s : DspState ℝ) (hb : 1 ≤ s.b)
    (ha : s.a < 0.988 * s.b) (hY : 1.012 * s.b < (1.012 : ℝ) ^ (250 / 3 : ℝ)) :
    (s.a < (sampleState (sampleTrace Real.rpow p s 0 0)).a
      ∧ s.b < (sampleState (sampleTrace Real.rpow p s 0 0)).b)
    ∧ 1 ≤ (sampleState (sampleTrace Real.rpow p s 0 0)).b
    ∧ (sampleState (sampleTrace Real.rpow p s 0 0)).a
        < 0.988 * (sampleState (sampleTrace Real.rpow p s 0 0)).b
    ∧ 1.012 * (sampleState (sampleTrace Real.rpow p s 0 0)).b
        < (1.012 : ℝ) ^ (250 / 3 : ℝ) := by
  have hab : s.a ≤ s.b := by linarith
  have hA : (sampleState (sampleTrace Real.rpow p s 0 0)).a = 0.988 * s.b :=
    silent_aNew Real.rpow p s hab
  have hB : (sampleState (sampleTrace Real.rpow p s 0 0)).b
      = 0.992 * s.b + 0.008 * (1.012 * s.b) ^ (0.988 : ℝ) := silent_bNew p s hb hab
  have hy : (0 : ℝ) < 1.012 * s.b := by linarith
  have h1 := rpow_988_gt (1.012 * s.b) hy hY
  have h2 := rpow_988_le (1.012 * s.b) hy hY.le
  have h3 : 1.012 * s.b / 1.012 = s.b := by field_simp
  rw [h3] at h1
  rw [hA, hB]
  refine ⟨⟨ha, ?_⟩, ?_, ?_, ?_⟩ <;> linarith

theorem processBlock_append (pw : K → K → K) (p : Params K) :
    ∀ (xs ys : List (K × K)) (s : DspState K),
      (processBlock pw p s (xs ++ ys)).1 = (processBlock pw p (processBlock pw p s xs).1 ys).1 := by
  intro xs
  induction xs with
  | nil => intro ys s; rfl
  | cons x rest ih =>
    intro ys s
    rw [List.cons_append, processBlock_cons, processBlock_cons]
    exact ih ys _

/-- The state after the impulse and `n + 1` zero pairs is one zero-sample step
after the state after the impulse and `n` zero pairs. -/
theorem impulse_succ (pw : K → K → K) (p : Params K) (s : DspState K) (x : K × K) (n : ℕ) :
    (processBlock pw p s (x :: List.replicate (n + 1) (0, 0))).1
      = sampleState (sampleTrace pw p
          (processBlock pw p s (x :: List.replicate n (0, 0))).1 0 0) := by
  rw [List.replicate_succ', ← List.cons_append, processBlock_append]
  rfl

/-- The state after the impulse `l = r = 1` from reset with the default
parameters: `a = 1.2664` and `b = 1.5205376 + 0.008 * 1.2664 ^ 1.2664`. -/
theorem impulse_state (s0 : DspState ℝ) :
    (processBlock Real.rpow (⟨0.27, 5.8, 1.0⟩ : Params ℝ) (prepareToPlay s0) [(1, 1)]).1.a
        = 1.2664
    ∧ (processBlock Real.rpow (⟨0.27, 5.8, 1.0⟩ : Params ℝ) (prepareToPlay s0) [(1, 1)]).1.b
        = 1.5205376 + 0.008 * (1.2664 : ℝ) ^ (1.2664 : ℝ) := by
  have hP : (0 : ℝ) ≤ (1.2664 : ℝ) ^ (1.2664 : ℝ) := Real.rpow_nonneg (by norm_num) _
  have hA : (sampleTrace Real.rpow (⟨0.27, 5.8, 1.0⟩ : Params ℝ) (prepareToPlay s0) 1 1).aNew
      = 1.2664 := by
    norm_num [sampleTrace, prepareToPlay, eps, abs_of_pos, max_eq_left]
  refine ⟨hA, ?_⟩
  show (sampleTrace Real.rpow (⟨0.27, 5.8, 1.0⟩ : Params ℝ) (prepareToPlay s0) 1 1).bNew = _
  rw [bNew_eq, hA]
  have hb : (prepareToPlay s0).b = 1 := by norm_num [prepareToPlay]
  have he : max (1 : ℝ) eps = 1 := max_eq_left (by unfold eps; norm_num)
  have h1 : |(1 : ℝ) - 1.2664| = 0.2664 := by rw [abs_of_neg (by norm_num)]; norm_num
  have h2 : |(1.2664 : ℝ) - 1| = 0.2664 := by rw [abs_of_pos (by norm_num)]; norm_num
  have h3 : max ((1 : ℝ) + 0.2664) eps = 1.2664 := by
    rw [max_eq_left (by unfold eps; norm_num)]; norm_num
  rw [hb, he, h1, h2, h3, div_one, Real.rpow_eq_pow, abs_of_nonneg hP]
  norm_num

theorem impulse_pow_bounds :
    (0 : ℝ) ≤ (1.2664 : ℝ) ^ (1.2664 : ℝ) ∧ (1.2664 : ℝ) ^ (1.2664 : ℝ) ≤ 1.61 := by
  refine ⟨Real.rpow_nonneg (by norm_num) _, ?_⟩
  have h1 : (1.2664 : ℝ) ^ (1.2664 : ℝ) ≤ (1.2664 : ℝ) ^ ((2 : ℕ) : ℝ) :=
    Real.rpow_le_rpow_of_exponent_le (by norm_num) (by norm_num)
  rw [Real.rpow_natCast] at h1
  have h2 : (1.2664 : ℝ) ^ 2 ≤ 1.61 := by norm_num
  linarith

/-- Along the impulse-then-silence run the three conditions of `silent_step`
hold after the impulse and after every later zero pair. -/
theorem impulse_run_conditions (s0 : DspState ℝ) (n : ℕ) :
    1 ≤ (processBlock Real.rpow (⟨0.27, 5.8, 1.0⟩ : Params ℝ) (prepareToPlay s0)
        ((1, 1) :: List.replicate n (0, 0))).1.b
    ∧ (processBlock Real.rpow (⟨0.27, 5.8, 1.0⟩ : Params ℝ) (prepareToPlay s0)
        ((1, 1) :: List.replicate n (0, 0))).1.a
      < 0.988 * (processBlock Real.rpow (⟨0.27, 5.8, 1.0⟩ : Params ℝ) (prepareToPlay s0)
        ((1, 1) :: List.replicate n (0, 0))).1.b
    ∧ 1.012 * (processBlock Real.rpow (⟨0.27, 5.8, 1.0⟩ : Params ℝ) (prepareToPlay s0)
        ((1, 1) :: List.replicate n (0, 0))).1.b < (1.012 : ℝ) ^ (250 / 3 : ℝ) := by
  induction n with
  | zero =>
    obtain ⟨hA, hB⟩ := impulse_state s0
    obtain ⟨hP0, hP1⟩ := impulse_pow_bounds
    have hF := fixed_lower
    simp only [List.replicate_zero]
    rw [hA, hB]
    refine ⟨?_, ?_, ?_⟩ <;> linarith
  | succ n ih =>
    rw [impulse_succ]
    exact (silent_step _ _ ih.1 ih.2.1 ih.2.2).2

/-- C9, counterexample. From reset with pressure `0.27`, drive `5.8`, volume
`1.0`, after the impulse `l = r = 1` the value of `a` is `1.2664`, and after the
first zero sample pair both `a` and `b` are greater than after the impulse:
neither is non-increasing over the zero samples. -/
theorem impulse_recovery_counterexample :
    ¬ ((processBlock Real.rpow (⟨0.27, 5.8, 1.0⟩ : Params ℝ)
          (prepareToPlay (⟨1, 1, 1, 0⟩ : DspState ℝ)) [(1, 1), (0, 0)]).1.a
        ≤ (processBlock Real.rpow (⟨0.27, 5.8, 1.0⟩ : Params ℝ)
          (prepareToPlay (⟨1, 1, 1, 0⟩ : DspState ℝ)) [(1, 1)]).1.a)
    ∧ ¬ ((processBlock Real.rpow (⟨0.27, 5.8, 1.0⟩ : Params ℝ)
          (prepareToPlay (⟨1, 1, 1, 0⟩ : DspState ℝ)) [(1, 1), (0, 0)]).1.b
        ≤ (processBlock Real.rpow (⟨0.27, 5.8, 1.0⟩ : Params ℝ)
          (prepareToPlay (⟨1, 1, 1, 0⟩ : DspState ℝ)) [(1, 1)]).1.b) := by
  have h := impulse_run_conditions ⟨1, 1, 1, 0⟩ 0
  have hs := (silent_step ⟨0.27, 5.8, 1.0⟩ _ h.1 h.2.1 h.2.2).1
  have he := impulse_succ Real.rpow (⟨0.27, 5.8, 1.0⟩ : Params ℝ)
    (prepareToPlay (⟨1, 1, 1, 0⟩ : DspState ℝ)) (1, 1) 0
  simp only [List.replicate_zero, List.replicate_succ, zero_add] at he hs
  rw [he]
  exact ⟨not_le.2 hs.1, not_le.2 hs.2⟩

/-- C9, amended. With the arithmetic read over the reals: from reset with
pressure `0.27`, drive `5.8`, volume `1.0`, after the impulse `l = r = 1`
followed by zero samples, `a` and `b` do not decay back toward `1.0`: over the
zero samples that follow the impulse, the value of `b` after each sample is no
less than its value after the previous sample, and likewise for `a`, with no
later fall. -/
theorem impulse_then_silence_rises (s0 : DspState ℝ) (n : ℕ) :
    (processBlock Real.rpow (⟨0.27, 5.8, 1.0⟩ : Params ℝ) (prepareToPlay s0)
        ((1, 1) :: List.replicate n (0, 0))).1.b
      ≤ (processBlock Real.rpow (⟨0.27, 5.8, 1.0⟩ : Params ℝ) (prepareToPlay s0)
        ((1, 1) :: List.replicate (n + 1) (0, 0))).1.b
    ∧ (processBlock Real.rpow (⟨0.27, 5.8, 1.0⟩ : Params ℝ) (prepareToPlay s0)
        ((1, 1) :: List.replicate n (0, 0))).1.a
      ≤ (processBlock Real.rpow (⟨0.27, 5.8, 1.0⟩ : Params ℝ) (prepareToPlay s0)
        ((1, 1) :: List.replicate (n + 1) (0, 0))).1.a := by
  have h := impulse_run_conditions s0 n
  have hs := (silent_step ⟨0.27, 5.8, 1.0⟩ _ h.1 h.2.1 h.2.2).1
  rw [impulse_succ]
  exact ⟨hs.2.le, hs.1.le⟩

/-! ## C10: the peak-hold term -/

/-- C10, counterexample. At `A = 2`, `B = 1` (both positive) the term
`A + |B - A|` is `3`, while `max (A, B)` is `2`. -/
theorem peak_hold_counterexample :
    (0 : ℝ) < 2 ∧ (0 : ℝ) < 1 ∧ peakHold (2 : ℝ) 1 = 3 ∧ max (2 : ℝ) 1 = 2
      ∧ peakHold (2 : ℝ) 1 ≠ max (2 : ℝ) 1 := by
  norm_num [peakHold, abs_of_neg]

/-- C10, amended. The term `A + |B - A|` of the `a` recurrence (and the same
idiom with the new `a` in the `b` recurrence) equals `max (B, 2A - B)` for all
real `A`, `B`; it equals `max (A, B)` exactly when `A ≤ B`. -/
theorem peak_hold_term (p : Params ℝ) (s : DspState ℝ) (l r A B : ℝ) :
    ((sampleTrace Real.rpow p s l r).aNew
        = (1.0 - 0.012) * peakHold s.a s.b
          + 0.012 * |s.b * (sampleTrace Real.rpow p s l r).det
              * (sampleTrace Real.rpow p s l r).det * p.drive|
            / ((sampleTrace Real.rpow p s l r).aSafe * (sampleTrace Real.rpow p s l r).aSafe)
      ∧ (sampleTrace Real.rpow p s l r).bNew
        = (1.0 - 0.008) * peakHold (sampleTrace Real.rpow p s l r).aNew s.b
          + 0.008 * |Real.rpow (sampleTrace Real.rpow p s l r).base
              (sampleTrace Real.rpow p s l r).expo|)
    ∧ peakHold A B = max B (2 * A - B)
    ∧ (peakHold A B = max A B ↔ A ≤ B) := by
  refine ⟨⟨rfl, rfl⟩, ?_, ?_⟩
  · unfold peakHold
    rcases le_total A B with h | h
    · rw [abs_of_nonneg (sub_nonneg.2 h), max_eq_left (by linarith)]; ring
    · rw [abs_of_nonpos (sub_nonpos.2 h), max_eq_right (by linarith)]; ring
  · unfold peakHold
    constructor
    · intro h
      by_contra hlt
      push_neg at hlt
      rw [abs_of_neg (sub_neg.2 hlt), max_eq_left hlt.le] at h
      linarith
    · intro h
      rw [abs_of_nonneg (sub_nonneg.2 h), max_eq_right h]; ring

/-! ## C11: the governor divisor stays at or above one -/

/-- From a state with `1 ≤ b` (any `a`), the base passed to `pow` is at least `1`
and the exponent is positive, so the power is at least `1`. -/
theorem pow_term_ge_one (p : Params ℝ) (s : DspState ℝ) (l r : ℝ) (hb : 1 ≤ s.b) :
    1 ≤ |Real.rpow (max (s.b + |(sampleTrace Real.rpow p s l r).aNew - s.b|) eps)
        ((sampleTrace Real.rpow p s l r).aNew / max s.b eps)| := by
  have ha : 0 < (sampleTrace Real.rpow p s l r).aNew :=
    aNew_pos Real.rpow p s l r (by linarith)
  have hbase : 1 ≤ max (s.b + |(sampleTrace Real.rpow p s l r).aNew - s.b|) eps := by
    have h1 := abs_nonneg ((sampleTrace Real.rpow p s l r).aNew - s.b)
    exact le_trans (by linarith) (le_max_left _ _)
  have hexpo : 0 ≤ (sampleTrace Real.rpow p s l r).aNew / max s.b eps :=
    div_nonneg ha.le (le_trans eps_pos.le (eps_le_max s.b))
  exact le_trans (Real.one_le_rpow hbase hexpo) (le_abs_self _)

/-- One loop iteration from a state with `1 ≤ b` leaves `1 ≤ b`. -/
theorem bNew_ge_one (p : Params ℝ) (s : DspState ℝ) (l r : ℝ) (hb : 1 ≤ s.b) :
    1 ≤ (sampleTrace Real.rpow p s l r).bNew := by
  have hpow := pow_term_ge_one p s l r hb
  have hpeak := peak_ge_right (sampleTrace Real.rpow p s l r).aNew s.b
  rw [bNew_eq]
  have h3 : (1.0 - 0.008 : ℝ) = 0.992 := by norm_num
  rw [h3]
  linarith

/-- With `1 ≤ b'` the base gain `1 / max (b', eps)` lies in `(0, 1]`. -/
theorem invb_le_one (x : ℝ) (hx : 1 ≤ x) : 0 < 1.0 / max x eps ∧ 1.0 / max x eps ≤ 1 := by
  have h1 : 1 ≤ max x eps := le_trans hx (le_max_left _ _)
  have h0 : 0 < max x eps := by linarith
  constructor
  · exact div_pos (by norm_num) h0
  · rw [div_le_one h0]
    norm_num
    exact Or.inl hx

/-- C11. The governor divisor never drops below unity, over the reals: from
every state with `b ≥ 1` (`a` arbitrary), for every input pair and every
parameter values (every drive), one loop iteration of `processBlock` leaves
`b ≥ 1`; hence `b ≥ 1` in every state reachable from `prepareToPlay`, the base
gain `1 / max (b, eps)` of such a state is at most `1`, and in every loop
iteration from such a state the gain `invb` applied to the input is at most `1`:
the base outputs `l * invb`, `r * invb` are no larger than the inputs in
absolute value. -/
theorem governor_divisor_ge_one :
    (∀ (p : Params ℝ) (s : DspState ℝ) (l r : ℝ), 1 ≤ s.b →
      1 ≤ (sampleState (sampleTrace Real.rpow p s l r)).b)
    ∧ (∀ s : DspState ℝ, Reachable Real.rpow s →
        1 ≤ s.b ∧ 1.0 / max s.b eps ≤ 1)
    ∧ (∀ (p : Params ℝ) (s : DspState ℝ) (l r : ℝ), Reachable Real.rpow s →
        (sampleTrace Real.rpow p s l r).invb
            = 1.0 / max (sampleTrace Real.rpow p s l r).bNew eps
          ∧ (sampleTrace Real.rpow p s l r).outL0 = l * (sampleTrace Real.rpow p s l r).invb
          ∧ (sampleTrace Real.rpow p s l r).outR0 = r * (sampleTrace Real.rpow p s l r).invb
          ∧ (sampleTrace Real.rpow p s l r).invb ≤ 1
          ∧ |(sampleTrace Real.rpow p s l r).outL0| ≤ |l|
          ∧ |(sampleTrace Real.rpow p s l r).outR0| ≤ |r|) := by
  have hreach : ∀ s : DspState ℝ, Reachable Real.rpow s → 1 ≤ s.b := by
    refine Reachable.invariant Real.rpow (fun s => 1 ≤ s.b) ?_ ?_
    · intro s
      norm_num [prepareToPlay]
    · intro p s l r hs
      exact bNew_ge_one p s l r hs
  refine ⟨fun p s l r hb => bNew_ge_one p s l r hb,
    fun s hs => ⟨hreach s hs, (invb_le_one s.b (hreach s hs)).2⟩, ?_⟩
  intro p s l r hs
  have hb := bNew_ge_one p s l r (hreach s hs)
  obtain ⟨hpos, hle⟩ := invb_le_one _ hb
  have hinv : (sampleTrace Real.rpow p s l r).invb
      = 1.0 / max (sampleTrace Real.rpow p s l r).bNew eps := rfl
  have hL : (sampleTrace Real.rpow p s l r).outL0
      = l * (sampleTrace Real.rpow p s l r).invb := rfl
  have hR : (sampleTrace Real.rpow p s l r).outR0
      = r * (sampleTrace Real.rpow p s l r).invb := rfl
  rw [← hinv] at hpos hle
  refine ⟨hinv, hL, hR, hle, ?_, ?_⟩
  · rw [hL, abs_mul, abs_of_pos hpos]
    exact mul_le_of_le_one_right (abs_nonneg l) hle
  · rw [hR, abs_mul, abs_of_pos hpos]
    exact mul_le_of_le_one_right (abs_nonneg r) hle

/-- Witness for C11: the step from the reset state on the impulse `l = r = 1`
with the default parameters. -/
theorem governor_divisor_ge_one_witness :
    (1 : ℝ) ≤ (⟨1, 1, 1, 0⟩ : DspState ℝ).b
    ∧ 1 ≤ (sampleState (sampleTrace Real.rpow (⟨0.27, 5.8, 1.0⟩ : Params ℝ)
        (⟨1, 1, 1, 0⟩ : DspState ℝ) 1 1)).b
    ∧ (sampleTrace Real.rpow (⟨0.27, 5.8, 1.0⟩ : Params ℝ)
        (prepareToPlay (⟨1, 1, 1, 0⟩ : DspState ℝ)) 1 1).invb ≤ 1 :=
  ⟨by norm_num,
   governor_divisor_ge_one.1 ⟨0.27, 5.8, 1.0⟩ ⟨1, 1, 1, 0⟩ 1 1 (by norm_num),
   (governor_divisor_ge_one.2.2 ⟨0.27, 5.8, 1.0⟩ (prepareToPlay ⟨1, 1, 1, 0⟩) 1 1
      (Reachable.reset _)).2.2.2.1⟩

end BusGovernor
